import Mathlib

/-!
The ledger core of gosimpleblockchain (`gschain.go`)

A shallow embedding of the block model, the hash derivation, the validators
and the ledger mutations of `src/gschain.go`, followed by the theorems that
settle the specification's claims about them.

Conventions of the embedding

* A Go `string` is a sequence of bytes: `GoString := List UInt8`.
* A Go `int` is a 64-bit two's complement integer.  Block indices are kept
  as `Int` and every addition the source performs is wrapped by `wrapInt`.
* `log.Fatal` prints its arguments and calls `os.Exit(1)`: the function that
  calls it never returns.  A slice index out of range raises a run-time
  panic.  Both are outcomes of a call, next to returning a value (`Outcome`).
* The process-wide variables `blockchain` and `sockets` are the fields of
  `Node`; a function that touches them maps a `Node` to the outcome of the call
  together with the `Node` as it stands when the call ends (by returning,
  exiting or panicking).
* `crypto/sha256.Sum256` is embedded as the SHA-256 function of FIPS 180-4.
* `encoding/json` encodes only the exported (capitalised) fields of a
  struct.  `Block` has none.
* `time.Now().String()` is an input of `generateNextBlock`.
-/

namespace GoSimpleBlockchain

/-- A Go string: an immutable sequence of bytes. -/
abbrev GoString := List UInt8

/-- The bytes of a string literal of the source (its UTF-8 encoding). -/
def lit (s : String) : GoString := s.data.flatMap String.utf8EncodeChar

/-! ## SHA-256 (`crypto/sha256`) -/

namespace Sha256

/-- Addition of 32-bit words. -/
def add32 (x y : Nat) : Nat := (x + y) % 2 ^ 32

/-- Rotation of a 32-bit word to the right by `n` bits. -/
def rotr (n x : Nat) : Nat := ((x >>> n) ||| (x <<< (32 - n))) % 2 ^ 32

/-- The choice function `Ch`. -/
def ch (x y z : Nat) : Nat := (x &&& y) ^^^ ((x ^^^ 0xffffffff) &&& z)

/-- The majority function `Maj`. -/
def maj (x y z : Nat) : Nat := (x &&& y) ^^^ (x &&& z) ^^^ (y &&& z)

/-- The function written with a capital sigma and index 0. -/
def bigSigma0 (x : Nat) : Nat := rotr 2 x ^^^ rotr 13 x ^^^ rotr 22 x

/-- The function written with a capital sigma and index 1. -/
def bigSigma1 (x : Nat) : Nat := rotr 6 x ^^^ rotr 11 x ^^^ rotr 25 x

/-- The function written with a small sigma and index 0. -/
def smallSigma0 (x : Nat) : Nat := rotr 7 x ^^^ rotr 18 x ^^^ (x >>> 3)

/-- The function written with a small sigma and index 1. -/
def smallSigma1 (x : Nat) : Nat := rotr 17 x ^^^ rotr 19 x ^^^ (x >>> 10)

/-- The first 64 primes. -/
def primes : List Nat := [
  2, 3, 5, 7, 11, 13, 17, 19, 23, 29, 31, 37, 41, 43, 47, 53,
  59, 61, 67, 71, 73, 79, 83, 89, 97, 101, 103, 107, 109, 113, 127, 131,
  137, 139, 149, 151, 157, 163, 167, 173, 179, 181, 191, 193, 197, 199, 211, 223,
  227, 229, 233, 239, 241, 251, 257, 263, 269, 271, 277, 281, 283, 293, 307, 311]

/-- The largest `r` below `2 ^ bits` with `r ^ k ≤ n`, found bit by bit from
the top, starting from `r` with the bits above `bits` already settled. -/
def rootBits (k n : Nat) : Nat → Nat → Nat
  | 0, r => r
  | bits + 1, r =>
    if (r ||| 1 <<< bits) ^ k ≤ n then rootBits k n bits (r ||| 1 <<< bits)
    else rootBits k n bits r

/-- The first 32 bits of the fractional part of the `k`-th root of `p`. -/
def fracRoot (k p : Nat) : Nat := rootBits k (p <<< (32 * k)) 40 0 % 2 ^ 32

/-- The round constants: the first 32 bits of the fractional parts of the cube
roots of the first 64 primes. -/
def K : List Nat := primes.map (fracRoot 3)

/-- The eight working words. -/
structure Regs where
  a : Nat
  b : Nat
  c : Nat
  d : Nat
  e : Nat
  f : Nat
  g : Nat
  h : Nat
  deriving DecidableEq, Repr

/-- The initial hash value: the first 32 bits of the fractional parts of the
square roots of the first 8 primes. -/
def H0 : Regs :=
  ⟨fracRoot 2 2, fracRoot 2 3, fracRoot 2 5, fracRoot 2 7,
   fracRoot 2 11, fracRoot 2 13, fracRoot 2 17, fracRoot 2 19⟩

/-- The padded message: the bytes, `0x80`, zero bytes up to 56 modulo 64, and
the bit length as a 64-bit big-endian integer. -/
def pad (msg : List UInt8) : List Nat :=
  let len := msg.length
  let bits := (8 * len) % 2 ^ 64
  msg.map UInt8.toNat ++ [0x80] ++ List.replicate ((119 - len % 64) % 64) 0
    ++ (List.range 8).map (fun i => (bits >>> (8 * (7 - i))) % 256)

/-- The big-endian 32-bit words of a run of bytes. -/
def toWords : List Nat → List Nat
  | b0 :: b1 :: b2 :: b3 :: rest =>
    (b0 <<< 24 ||| b1 <<< 16 ||| b2 <<< 8 ||| b3) :: toWords rest
  | _ => []

/-- One step of the message schedule, on the schedule built so far in
reverse order (latest word first). -/
def scheduleStep (rev : List Nat) : List Nat :=
  add32 (add32 (smallSigma1 (rev.getD 1 0)) (rev.getD 6 0))
    (add32 (smallSigma0 (rev.getD 14 0)) (rev.getD 15 0)) :: rev

/-- The 64 words of the message schedule of a 16-word block. -/
def schedule (block : List Nat) : List Nat :=
  (Nat.iterate scheduleStep 48 block.reverse).reverse

/-- One round of the compression function. -/
def round (r : Regs) (kw : Nat × Nat) : Regs :=
  let t1 := add32 (add32 (add32 r.h (bigSigma1 r.e)) (add32 (ch r.e r.f r.g) kw.1)) kw.2
  let t2 := add32 (bigSigma0 r.a) (maj r.a r.b r.c)
  ⟨add32 t1 t2, r.a, r.b, r.c, add32 r.d t1, r.e, r.f, r.g⟩

/-- The compression of one 16-word block into the hash value. -/
def compress (hv : Regs) (block : List Nat) : Regs :=
  let r := (K.zip (schedule block)).foldl round hv
  ⟨add32 hv.a r.a, add32 hv.b r.b, add32 hv.c r.c, add32 hv.d r.d,
   add32 hv.e r.e, add32 hv.f r.f, add32 hv.g r.g, add32 hv.h r.h⟩

/-- The hash value after the first `n` 16-word blocks of `words`. -/
def hashBlocks : Nat → List Nat → Regs → Regs
  | 0, _, hv => hv
  | n + 1, words, hv => hashBlocks n (words.drop 16) (compress hv (words.take 16))

/-- The four bytes of a word, most significant first. -/
def wordBytes (w : Nat) : List UInt8 :=
  [UInt8.ofNat (w >>> 24), UInt8.ofNat (w >>> 16), UInt8.ofNat (w >>> 8), UInt8.ofNat w]

/-- The digest: the eight words of the final hash value, big-endian. -/
def digest (r : Regs) : List UInt8 :=
  wordBytes r.a ++ wordBytes r.b ++ wordBytes r.c ++ wordBytes r.d
    ++ wordBytes r.e ++ wordBytes r.f ++ wordBytes r.g ++ wordBytes r.h

/-- The function `sha256.Sum256(data)`: the 32 bytes of the SHA-256 digest of `data`. -/
def sum256 (data : List UInt8) : List UInt8 :=
  let words := toWords (pad data)
  digest (hashBlocks (words.length / 16) words H0)

end Sha256

/-! ## The block model -/

/-- The width of a Go `int` on the 64-bit platforms. -/
def intBits : Nat := 64

/-- The value a Go `int` holds after an arithmetic result `x`: two's
complement wrap-around. -/
def wrapInt (x : Int) : Int :=
  (x + 2 ^ (intBits - 1)) % 2 ^ intBits - 2 ^ (intBits - 1)

/-- The type `Block struct`. -/
structure Block where
  index : Int
  previousHash : GoString
  timestamp : GoString
  data : GoString
  hash : GoString
  deriving DecidableEq, Repr

/-- Formatting `fmt.Sprintf("%d", n)` for a natural number: its decimal digits. -/
def fmtNat (n : Nat) : GoString := (Nat.toDigits 10 n).map (fun c => UInt8.ofNat c.toNat)

/-- Formatting `fmt.Sprintf("%d", i)`: decimal digits, with a minus sign when negative. -/
def fmtInt (i : Int) : GoString :=
  if i < 0 then lit "-" ++ fmtNat i.natAbs else fmtNat i.natAbs

/-- The argument of the digest in `calculateHash`:
`[]byte(fmt.Sprintf("%d%s%s%s", index, previousHash, timestamp, data))`. -/
def hashInput (index : Int) (previousHash timestamp data : GoString) : GoString :=
  fmtInt index ++ previousHash ++ timestamp ++ data

/-- Go `func calculateHash`: the 32 raw bytes of the digest, as a string. -/
def calculateHash (index : Int) (previousHash timestamp data : GoString) : GoString :=
  (Sha256.sum256 (hashInput index previousHash timestamp data)).take 32

/-- Go `func calculateHashForBlock`. -/
def calculateHashForBlock (block : Block) : GoString :=
  calculateHash block.index block.previousHash block.timestamp block.data

/-- Go `var GenesisBlock`. -/
def GenesisBlock : Block :=
  { index := 0
    previousHash := lit "0"
    timestamp := lit "1465154705"
    data := lit "my genesis block!!"
    hash := lit "816534932c2b7154836da6afc367695e6337db8a921823784c14378abed4f7d7" }

/-! ## How a call ends, and the state of the process -/

/-- The ways a call ends: it returns a value, the process exits through
`log.Fatal` (only the literal text of the first argument is recorded), or a
run-time panic is raised. -/
inductive Outcome (α : Type) where
  | ret (value : α)
  | fatal (msg : String)
  | panic (msg : String)
  deriving DecidableEq, Repr

namespace Outcome

/-- Sequencing: what follows a call runs only if the call returned. -/
def bind {α β : Type} (x : Outcome α) (f : α → Outcome β) : Outcome β :=
  match x with
  | ret a => f a
  | fatal m => fatal m
  | panic m => panic m

instance : Monad Outcome where
  pure := ret
  bind := bind

end Outcome

/-- Go `log.Fatal(msg, ...)`: print, then `os.Exit(1)`. -/
def logFatal (msg : String) : Outcome Unit := Outcome.fatal msg

/-- The slice element `xs[i]`; an index out of range panics. -/
def sliceAt {α : Type} (xs : List α) (i : Int) : Outcome α :=
  if i < 0 then Outcome.panic "index out of range"
  else
    match xs[i.toNat]? with
    | some x => Outcome.ret x
    | none => Outcome.panic "index out of range"

/-- The package-level variables `blockchain` and `sockets`, and the frames
handed to `conn.WriteJSON` so far (connection, message), oldest first. -/
structure Node where
  blockchain : List Block
  sockets : List Nat
  sent : List (Nat × GoString)
  deriving DecidableEq, Repr

/-- A function of the program that reads or writes the package-level
variables: the outcome of the call and the variables as the call leaves them. -/
def Go (α : Type) : Type := Node → Outcome α × Node

namespace Go

/-- Sequencing: what follows a call runs only if the call returned, on the
variables as the call left them; an exit or a panic ends the run there. -/
def bind {α β : Type} (x : Go α) (f : α → Go β) : Go β := fun s =>
  match x s with
  | (Outcome.ret a, s1) => f a s1
  | (Outcome.fatal m, s1) => (Outcome.fatal m, s1)
  | (Outcome.panic m, s1) => (Outcome.panic m, s1)

instance : Monad Go where
  pure a := fun s => (Outcome.ret a, s)
  bind := bind

/-- A call that does not touch the variables. -/
def lift {α : Type} (x : Outcome α) : Go α := fun s => (x, s)

instance : MonadLift Outcome Go where
  monadLift := lift

/-- Reading `blockchain`. -/
def getBlockchain : Go (List Block) := fun s => (Outcome.ret s.blockchain, s)

/-- The assignment `blockchain = bc`. -/
def setBlockchain (bc : List Block) : Go Unit := fun s =>
  (Outcome.ret (), { s with blockchain := bc })

end Go

/-! ## Messages -/

/-- Message type `QUERY_LATEST = 0 + iota`. -/
def QUERY_LATEST : Int := 0

/-- Message type `QUERY_ALL`. -/
def QUERY_ALL : Int := 1

/-- Message type `RESPONSE_BLOCKCHAIN`. -/
def RESPONSE_BLOCKCHAIN : Int := 2

/-- Go `json.Marshal` of a `Block`: the struct has no exported field, so the
encoding is the empty object for every block. -/
def jsonMarshalBlock (_block : Block) : GoString := lit "\x7b\x7d"

/-- Go `json.Marshal` of a `[]Block`: an array of the blocks' encodings. -/
def jsonMarshalBlocks (blocks : List Block) : GoString :=
  lit "[" ++ ((blocks.map jsonMarshalBlock).intersperse (lit ",")).flatten ++ lit "]"

/-- Go `func getLatestBlock`: `&blockchain[len(blockchain)-1]`. -/
def getLatestBlock : Go Block := do
  let bc ← Go.getBlockchain
  sliceAt bc ((bc.length : Int) - 1)

/-- Go `func queryChainLengthMsg`. -/
def queryChainLengthMsg : GoString :=
  lit "\x7b\x27type\x27: " ++ fmtInt QUERY_LATEST ++ lit "\x7d"

/-- Go `func queryAllMsg`. -/
def queryAllMsg : GoString :=
  lit "\x7b\x27type\x27: " ++ fmtInt QUERY_ALL ++ lit "\x7d"

/-- Go `func responseChainMsg` (`json.Marshal` of a slice of blocks cannot fail). -/
def responseChainMsg : Go GoString := do
  let bc ← Go.getBlockchain
  return lit "\x7b\x27type\x27: " ++ fmtInt RESPONSE_BLOCKCHAIN ++ lit ", \x27data\x27: "
    ++ jsonMarshalBlocks bc ++ lit "\x7d"

/-- Go `func responseLatestMsg` (`json.Marshal` of a block cannot fail). -/
def responseLatestMsg : Go GoString := do
  let latest ← getLatestBlock
  return lit "\x7b\x27type\x27: " ++ fmtInt RESPONSE_BLOCKCHAIN ++ lit ", \x27data\x27: "
    ++ jsonMarshalBlock latest ++ lit "\x7d"

/-- Go `func broadcast`: one `WriteJSON` per connection, errors ignored. -/
def broadcast (message : GoString) : Go Unit := fun s =>
  (Outcome.ret (), { s with sent := s.sent ++ s.sockets.map (fun conn => (conn, message)) })

/-! ## Minting and validation -/

/-- Go `func generateNextBlock`; `now` is `time.Now().String()`. -/
def generateNextBlock (now blockData : GoString) : Go Block := do
  let index := wrapInt ((← getLatestBlock).index + 1)
  let previousHash := (← getLatestBlock).hash
  let nextblock : Block :=
    { index := index, previousHash := previousHash, timestamp := now, data := blockData,
      hash := [] }
  return { nextblock with
    hash := calculateHash nextblock.index nextblock.previousHash nextblock.timestamp
      nextblock.data }

/-- Go `func isValidNewBlock`. -/
def isValidNewBlock (newBlock previousBlock : Block) : Outcome Bool := do
  if wrapInt (previousBlock.index + 1) ≠ newBlock.index then
    logFatal "Wrong Block: invalid index"
    return false
  else if previousBlock.hash ≠ newBlock.previousHash then
    logFatal "Wrong Block: invalid previousHash"
    return false
  else if calculateHashForBlock newBlock ≠ newBlock.hash then
    logFatal "Wrong Block: invalid hash: "
    return false
  else
    return true

/-- Go `func addBlock`. -/
def addBlock (newBlock : Block) : Go Unit := do
  if (← isValidNewBlock newBlock (← getLatestBlock)) then
    Go.setBlockchain ((← Go.getBlockchain) ++ [newBlock])

/-- The loop of `isValidChain`, with `n` iterations left, at index `i`. -/
def isValidChainLoop (blockchainToValidate : List Block) :
    Nat → Nat → List Block → Outcome Bool
  | 0, _, _ => return true
  | n + 1, i, tempBlocks => do
    let candidate ← sliceAt blockchainToValidate (i : Int)
    let previous ← sliceAt tempBlocks ((i : Int) - 1)
    if (← isValidNewBlock candidate previous) then
      isValidChainLoop blockchainToValidate n (i + 1) (tempBlocks ++ [candidate])
    else
      return false

/-- Go `func isValidChain`. -/
def isValidChain (blockchainToValidate : List Block) : Outcome Bool := do
  let first ← sliceAt blockchainToValidate 0
  let njson := jsonMarshalBlock first
  let ejson := jsonMarshalBlock GenesisBlock
  if njson ≠ ejson then
    return false
  else
    isValidChainLoop blockchainToValidate (blockchainToValidate.length - 1) 1 [first]

/-- Go `func replaceChain`. -/
def replaceChain (newBlocks : List Block) : Go Unit := do
  if (← isValidChain newBlocks) && decide (newBlocks.length > (← Go.getBlockchain).length) then
    logFatal "Received blockchain valid"
    Go.setBlockchain newBlocks
    broadcast (← responseLatestMsg)
  else
    logFatal "Received blockchain invalid"

/-- Go `sort.Sort(Blocks(blocks))`: ascending by `index`.  (`sort.Sort` does not
promise an order among blocks of equal index; this is the order its insertion
sort gives, the one it runs on slices of fewer than 12 elements.) -/
def sortBlocks (blocks : List Block) : List Block :=
  blocks.insertionSort (fun x y => x.index ≤ y.index)

/-- Go `func handleBlockChainResponse`, from the result of
`json.Unmarshal(message, &blocks)` on: `none` is a decoding error.  The function
is embedded for every decoded list; the lists the decoder can yield are those of
`unmarshalBlocks`. -/
def handleBlockChainResponse (unmarshalled : Option (List Block)) : Go Unit := do
  match unmarshalled with
  | none =>
    logFatal "Ignored"
    return
  | some decoded =>
    let blocks := sortBlocks decoded
    let latestBlockReceived ← sliceAt blocks ((blocks.length : Int) - 1)
    let latestBlockHeld ← getLatestBlock
    if latestBlockReceived.index > latestBlockHeld.index then
      logFatal "Blockchain Possibly Behind. We got: "
      if latestBlockHeld.hash = latestBlockReceived.previousHash then
        logFatal "Append Block to Chain"
        Go.setBlockchain ((← Go.getBlockchain) ++ [latestBlockReceived])
        broadcast (← responseLatestMsg)
      else if blocks.length = 1 then
        broadcast queryAllMsg
      else
        replaceChain blocks
    else
      logFatal "Ignored"

/-- The `/mineBlock` handler of `initHttpServer`; `body` is the result of
`ioutil.ReadAll(r.Body)`, `none` when it fails. -/
def mineBlock (body : Option GoString) (now : GoString) : Go Unit := do
  match body with
  | none => return
  | some bytes =>
    let newBlock ← generateNextBlock now bytes
    addBlock newBlock
    broadcast (← responseLatestMsg)
    logFatal "block added: "

/-! ## Notions of the specification -/

/-- The three successor checks of a candidate against the block before it:
index continuity (in the arithmetic of Go's `int`), linkage of `previousHash`,
and the recomputed hash. -/
def ValidSuccessor (candidate previous : Block) : Prop :=
  candidate.index = wrapInt (previous.index + 1) ∧
    candidate.previousHash = previous.hash ∧
    calculateHash candidate.index candidate.previousHash candidate.timestamp candidate.data
      = candidate.hash

instance (candidate previous : Block) : Decidable (ValidSuccessor candidate previous) := by
  unfold ValidSuccessor
  infer_instance

/-- Every block after the first passes the successor checks against the block
before it. -/
def ChainLinked (chain : List Block) : Prop :=
  ∀ (i : Nat) (_ : 0 < i) (h : i < chain.length), ValidSuccessor chain[i] (chain[i - 1])

/-- The process after start-up: `blockchain = []Block{GenesisBlock}`, nothing
sent.  (`sockets` is nil in the source, which never appends to it; the set of
connections is left open here.) -/
def initialNode (conns : List Nat) : Node :=
  { blockchain := [GenesisBlock], sockets := conns, sent := [] }

/-- One operation on the process: a local mint (`generateNextBlock` followed by
`addBlock`), the `/mineBlock` handler, `addBlock` of any block, `replaceChain`
of any chain, `handleBlockChainResponse` of any decoding result.  The node after
the operation is the state of the variables when the call ends, however it
ends. -/
inductive Step : Node → Node → Prop where
  | byMint (s : Node) (now data : GoString) (b : Block) (s1 : Node) :
      generateNextBlock now data s = (Outcome.ret b, s1) → Step s (addBlock b s1).2
  | byMineBlock (s : Node) (body : Option GoString) (now : GoString) :
      Step s (mineBlock body now s).2
  | byAddBlock (s : Node) (b : Block) : Step s (addBlock b s).2
  | byReplaceChain (s : Node) (newBlocks : List Block) : Step s (replaceChain newBlocks s).2
  | byResponse (s : Node) (unmarshalled : Option (List Block)) :
      Step s (handleBlockChainResponse unmarshalled s).2

/-- The states of the process the operations lead to from start-up. -/
inductive Reachable : Node → Prop where
  | init (conns : List Nat) : Reachable (initialNode conns)
  | step {s t : Node} : Reachable s → Step s t → Reachable t

/-- Go `hex.EncodeToString`: two lower-case hexadecimal digits per byte. -/
def hexEncodeToString (bytes : GoString) : GoString :=
  bytes.flatMap (fun b =>
    [(lit "0123456789abcdef").getD (b.toNat / 16) 0, (lit "0123456789abcdef").getD (b.toNat % 16) 0])

/-- The genesis block with the last byte of `data` changed. -/
def alteredGenesis : Block := { GenesisBlock with data := lit "my genesis block!?" }

/-- The block a mint of the data `hello` at the time `t` yields on the ledger
`[GenesisBlock]`. -/
def helloBlock : Block :=
  { index := 1
    previousHash := GenesisBlock.hash
    timestamp := lit "t"
    data := lit "hello"
    hash := calculateHash 1 GenesisBlock.hash (lit "t") (lit "hello") }

/-- The block `generateNextBlock` yields at the time `now` for the data `data`
when `previous` is the latest block of the ledger. -/
def mintOn (previous : Block) (now data : GoString) : Block :=
  { index := wrapInt (previous.index + 1)
    previousHash := previous.hash
    timestamp := now
    data := data
    hash := calculateHash (wrapInt (previous.index + 1)) previous.hash now data }

/-- A chain of five blocks: the genesis block and four blocks minted one on the
other. -/
def fiveBlocks : List Block :=
  [GenesisBlock,
   mintOn GenesisBlock (lit "t1") (lit "a"),
   mintOn (mintOn GenesisBlock (lit "t1") (lit "a")) (lit "t2") (lit "b"),
   mintOn (mintOn (mintOn GenesisBlock (lit "t1") (lit "a")) (lit "t2") (lit "b")) (lit "t3")
     (lit "c"),
   mintOn (mintOn (mintOn (mintOn GenesisBlock (lit "t1") (lit "a")) (lit "t2") (lit "b"))
     (lit "t3") (lit "c")) (lit "t4") (lit "d")]

/-- A block far ahead of the genesis block that does not link to it. -/
def farBlock : Block :=
  { index := 5, previousHash := lit "x", timestamp := lit "t", data := lit "d", hash := lit "h" }

/-- A node on the initial ledger with two connections, 1 and 2. -/
def twoPeerNode : Node := { blockchain := [GenesisBlock], sockets := [1, 2], sent := [] }

/-- The zero value `Block{}`. -/
def zeroBlock : Block :=
  { index := 0, previousHash := [], timestamp := [], data := [], hash := [] }

/-- What `json.Unmarshal(message, &blocks)` can yield: an error (`none`), or, for a
JSON array of `n` elements, `n` blocks.  `Block` has no exported field for the
decoder to fill, so each of them is `Block{}`, whatever the payload carries. -/
def unmarshalBlocks (count : Option Nat) : Option (List Block) :=
  count.map (fun n => List.replicate n zeroBlock)

/-- A node with two connections whose ledger ends in a block of index -1: a
ledger on which a decoded block, of index 0, is ahead of the latest block. -/
def behindNode : Node :=
  { blockchain :=
      [{ index := -1, previousHash := [], timestamp := [], data := [], hash := lit "h" }]
    sockets := [1, 2]
    sent := [] }

/-- The block `changed` is `original` with exactly one of the five fields
replaced by a different value. -/
def DiffersInOneField (original changed : Block) : Prop :=
  (changed.index ≠ original.index ∧ changed = { original with index := changed.index }) ∨
  (changed.previousHash ≠ original.previousHash ∧
    changed = { original with previousHash := changed.previousHash }) ∨
  (changed.timestamp ≠ original.timestamp ∧
    changed = { original with timestamp := changed.timestamp }) ∨
  (changed.data ≠ original.data ∧ changed = { original with data := changed.data }) ∨
  (changed.hash ≠ original.hash ∧ changed = { original with hash := changed.hash })

/-! # Theorems -/

/-! ## Sequencing lemmas -/

@[simp] theorem Outcome.pure_eq {α : Type} (a : α) : (pure a : Outcome α) = Outcome.ret a := rfl

@[simp] theorem Outcome.ret_bind {α β : Type} (a : α) (f : α → Outcome β) :
    (Outcome.ret a >>= f) = f a := rfl

@[simp] theorem Outcome.fatal_bind {α β : Type} (m : String) (f : α → Outcome β) :
    (Outcome.fatal m >>= f) = Outcome.fatal m := rfl

@[simp] theorem Outcome.panic_bind {α β : Type} (m : String) (f : α → Outcome β) :
    (Outcome.panic m >>= f) = Outcome.panic m := rfl

theorem Go.bind_apply {α β : Type} (x : Go α) (f : α → Go β) (s : Node) :
    (x >>= f) s =
      match x s with
      | (Outcome.ret a, s1) => f a s1
      | (Outcome.fatal m, s1) => (Outcome.fatal m, s1)
      | (Outcome.panic m, s1) => (Outcome.panic m, s1) := rfl

@[simp] theorem Go.pure_apply {α : Type} (a : α) (s : Node) :
    (pure a : Go α) s = (Outcome.ret a, s) := rfl

@[simp] theorem Go.liftM_apply {α : Type} (x : Outcome α) (s : Node) :
    (liftM x : Go α) s = (x, s) := rfl

@[simp] theorem Go.getBlockchain_apply (s : Node) :
    Go.getBlockchain s = (Outcome.ret s.blockchain, s) := rfl

@[simp] theorem Go.setBlockchain_apply (bc : List Block) (s : Node) :
    Go.setBlockchain bc s = (Outcome.ret (), { s with blockchain := bc }) := rfl

/-! ## Slices -/

theorem sliceAt_natCast {α : Type} (xs : List α) (i : Nat) (h : i < xs.length) :
    sliceAt xs (i : Int) = Outcome.ret xs[i] := by
  unfold sliceAt
  have h0 : ¬ ((i : Int) < 0) := by omega
  simp [h0, List.getElem?_eq_getElem h]

theorem sliceAt_natCast_sub_one {α : Type} (xs : List α) (i : Nat) (h1 : 1 ≤ i)
    (h : i - 1 < xs.length) : sliceAt xs ((i : Int) - 1) = Outcome.ret xs[i - 1] := by
  have e : ((i : Int) - 1) = ((i - 1 : Nat) : Int) := by omega
  rw [e]
  exact sliceAt_natCast xs (i - 1) h

theorem sliceAt_nil {α : Type} (i : Int) :
    sliceAt ([] : List α) i = Outcome.panic "index out of range" := by
  unfold sliceAt
  split_ifs <;> simp

theorem sliceAt_last {α : Type} (xs : List α) (h : xs ≠ []) :
    sliceAt xs ((xs.length : Int) - 1) = Outcome.ret (xs.getLast h) := by
  have hl : 0 < xs.length := List.length_pos.mpr h
  rw [sliceAt_natCast_sub_one xs xs.length hl (by omega)]
  rw [List.getLast_eq_getElem]

theorem getLatestBlock_apply (s : Node) :
    getLatestBlock s = (sliceAt s.blockchain ((s.blockchain.length : Int) - 1), s) := by
  simp [getLatestBlock, Go.bind_apply]

theorem getLatestBlock_of_ne_nil (s : Node) (h : s.blockchain ≠ []) :
    getLatestBlock s = (Outcome.ret (s.blockchain.getLast h), s) := by
  rw [getLatestBlock_apply, sliceAt_last _ h]

theorem getLatestBlock_of_nil (s : Node) (h : s.blockchain = []) :
    getLatestBlock s = (Outcome.panic "index out of range", s) := by
  rw [getLatestBlock_apply, h, sliceAt_nil]

theorem isValidNewBlock_eq (c p : Block) :
    isValidNewBlock c p =
      if wrapInt (p.index + 1) ≠ c.index then Outcome.fatal "Wrong Block: invalid index"
      else if p.hash ≠ c.previousHash then Outcome.fatal "Wrong Block: invalid previousHash"
      else if calculateHashForBlock c ≠ c.hash then Outcome.fatal "Wrong Block: invalid hash: "
      else Outcome.ret true := by
  unfold isValidNewBlock logFatal
  split_ifs <;> simp

theorem isValidNewBlock_ret_true (c p : Block) :
    isValidNewBlock c p = Outcome.ret true ↔ ValidSuccessor c p := by
  rw [isValidNewBlock_eq]
  unfold calculateHashForBlock ValidSuccessor
  split_ifs with h1 h2 h3 <;> simp_all [eq_comm]

theorem isValidNewBlock_cases (c p : Block) :
    isValidNewBlock c p = Outcome.ret true ∨ ∃ m, isValidNewBlock c p = Outcome.fatal m := by
  rw [isValidNewBlock_eq]
  split_ifs <;> simp

theorem isValidChainLoop_ret_true (chain : List Block) :
    ∀ (n i : Nat) (temp : List Block), i + n = chain.length → 1 ≤ i → temp = chain.take i →
      (isValidChainLoop chain n i temp = Outcome.ret true ↔
        ∀ (j : Nat) (_ : i ≤ j) (h : j < chain.length),
          isValidNewBlock chain[j] (chain[j - 1]) = Outcome.ret true) := by
  intro n
  induction n with
  | zero =>
    intro i temp hn _ _
    simp only [isValidChainLoop, Outcome.pure_eq, true_iff]
    intro j hj h
    omega
  | succ n ih =>
    intro i temp hn h1 ht
    have hi : i < chain.length := by omega
    have hlen : temp.length = i := by
      rw [ht, List.length_take]
      omega
    have e1 : sliceAt chain (i : Int) = Outcome.ret chain[i] := sliceAt_natCast _ _ hi
    have e2 : sliceAt temp ((i : Int) - 1) = Outcome.ret (chain[i - 1]) := by
      rw [sliceAt_natCast_sub_one temp i h1 (by omega)]
      subst ht
      simp [List.getElem_take]
    rw [isValidChainLoop]
    simp only [e1, e2, Outcome.ret_bind]
    rcases isValidNewBlock_cases chain[i] (chain[i - 1]) with hv | ⟨m, hv⟩
    · rw [hv]
      simp only [Outcome.ret_bind, if_true]
      rw [ih (i + 1) _ (by omega) (by omega) (by rw [ht, List.take_succ, List.getElem?_eq_getElem hi]; rfl)]
      constructor
      · intro H j hj h
        rcases Nat.eq_or_lt_of_le hj with e | hlt
        · subst e
          exact hv
        · exact H j hlt h
      · intro H j hj h
        exact H j (by omega) h
    · rw [hv]
      simp only [Outcome.fatal_bind]
      constructor
      · intro H
        cases H
      · intro H
        have := H i le_rfl hi
        rw [hv] at this
        cases this

theorem isValidChain_cons (b0 : Block) (rest : List Block) :
    isValidChain (b0 :: rest) = isValidChainLoop (b0 :: rest) rest.length 1 [b0] := by
  unfold isValidChain
  have e : sliceAt (b0 :: rest) 0 = Outcome.ret b0 := by
    simp [sliceAt]
  simp [e, jsonMarshalBlock]

theorem isValidChain_nil : isValidChain [] = Outcome.panic "index out of range" := by
  unfold isValidChain
  rw [sliceAt_nil]
  rfl

/-! ## The ledger mutations -/

theorem addBlock_apply (c : Block) (s : Node) (h : s.blockchain ≠ []) :
    addBlock c s =
      match isValidNewBlock c (s.blockchain.getLast h) with
      | Outcome.ret true => (Outcome.ret (), { s with blockchain := s.blockchain ++ [c] })
      | Outcome.ret false => (Outcome.ret (), s)
      | Outcome.fatal m => (Outcome.fatal m, s)
      | Outcome.panic m => (Outcome.panic m, s) := by
  unfold addBlock
  simp only [Go.bind_apply, getLatestBlock_of_ne_nil s h, Go.liftM_apply]
  cases hv : isValidNewBlock c (s.blockchain.getLast h) with
  | ret b => cases b <;> simp [Go.bind_apply]
  | fatal m => simp
  | panic m => simp

theorem addBlock_of_valid (c : Block) (s : Node) (h : s.blockchain ≠ [])
    (hv : ValidSuccessor c (s.blockchain.getLast h)) :
    addBlock c s = (Outcome.ret (), { s with blockchain := s.blockchain ++ [c] }) := by
  rw [addBlock_apply c s h, (isValidNewBlock_ret_true _ _).mpr hv]

theorem addBlock_of_invalid (c : Block) (s : Node) (h : s.blockchain ≠ [])
    (hv : ¬ ValidSuccessor c (s.blockchain.getLast h)) :
    ∃ m, addBlock c s = (Outcome.fatal m, s) := by
  rw [addBlock_apply c s h]
  rcases isValidNewBlock_cases c (s.blockchain.getLast h) with e | ⟨m, e⟩
  · exact absurd ((isValidNewBlock_ret_true _ _).mp e) hv
  · exact ⟨m, by rw [e]⟩

theorem addBlock_of_nil (c : Block) (s : Node) (h : s.blockchain = []) :
    addBlock c s = (Outcome.panic "index out of range", s) := by
  unfold addBlock
  simp only [Go.bind_apply, getLatestBlock_of_nil s h]

theorem replaceChain_apply (newBlocks : List Block) (s : Node) :
    ∃ o, (∀ u, o ≠ Outcome.ret u) ∧ replaceChain newBlocks s = (o, s) := by
  unfold replaceChain
  simp only [Go.bind_apply, Go.liftM_apply, Go.getBlockchain_apply]
  cases hv : isValidChain newBlocks with
  | ret b =>
    by_cases hc : (b && decide (newBlocks.length > s.blockchain.length)) = true
    · exact ⟨Outcome.fatal "Received blockchain valid", by simp, by simp [hc, Go.bind_apply, logFatal]⟩
    · exact ⟨Outcome.fatal "Received blockchain invalid", by simp, by simp [hc, logFatal]⟩
  | fatal m => exact ⟨Outcome.fatal m, by simp, rfl⟩
  | panic m => exact ⟨Outcome.panic m, by simp, rfl⟩

theorem handleBlockChainResponse_apply (unmarshalled : Option (List Block)) (s : Node) :
    ∃ o, (∀ u, o ≠ Outcome.ret u) ∧ handleBlockChainResponse unmarshalled s = (o, s) := by
  unfold handleBlockChainResponse
  cases unmarshalled with
  | none => exact ⟨Outcome.fatal "Ignored", by simp, by simp [Go.bind_apply, logFatal]⟩
  | some decoded =>
    simp only [Go.bind_apply, Go.liftM_apply]
    cases h1 : sliceAt (sortBlocks decoded) ((sortBlocks decoded).length - 1 : Int) with
    | ret r =>
      simp only [getLatestBlock_apply]
      cases h2 : sliceAt s.blockchain ((s.blockchain.length : Int) - 1) with
      | ret l =>
        by_cases hc : r.index > l.index
        · exact ⟨Outcome.fatal "Blockchain Possibly Behind. We got: ", by simp,
            by simp [hc, Go.bind_apply, logFatal]⟩
        · exact ⟨Outcome.fatal "Ignored", by simp, by simp [hc, logFatal]⟩
      | fatal m => exact ⟨Outcome.fatal m, by simp, rfl⟩
      | panic m => exact ⟨Outcome.panic m, by simp, rfl⟩
    | fatal m => exact ⟨Outcome.fatal m, by simp, rfl⟩
    | panic m => exact ⟨Outcome.panic m, by simp, rfl⟩

theorem generateNextBlock_apply (now data : GoString) (s : Node) (h : s.blockchain ≠ []) :
    generateNextBlock now data s =
      (Outcome.ret
        { index := wrapInt ((s.blockchain.getLast h).index + 1)
          previousHash := (s.blockchain.getLast h).hash
          timestamp := now
          data := data
          hash := calculateHash (wrapInt ((s.blockchain.getLast h).index + 1))
            (s.blockchain.getLast h).hash now data }, s) := by
  unfold generateNextBlock
  simp only [Go.bind_apply, getLatestBlock_of_ne_nil s h, Go.pure_apply]

theorem generateNextBlock_of_nil (now data : GoString) (s : Node) (h : s.blockchain = []) :
    generateNextBlock now data s = (Outcome.panic "index out of range", s) := by
  unfold generateNextBlock
  simp only [Go.bind_apply, getLatestBlock_of_nil s h]

/-! ## Minting -/

theorem generated_validSuccessor (now data : GoString) (latest : Block) :
    ValidSuccessor
      { index := wrapInt (latest.index + 1)
        previousHash := latest.hash
        timestamp := now
        data := data
        hash := calculateHash (wrapInt (latest.index + 1)) latest.hash now data } latest :=
  ⟨rfl, rfl, rfl⟩

theorem responseLatestMsg_apply (s : Node) (h : s.blockchain ≠ []) :
    responseLatestMsg s =
      (Outcome.ret (lit "\x7b\x27type\x27: " ++ fmtInt RESPONSE_BLOCKCHAIN ++ lit ", \x27data\x27: "
        ++ jsonMarshalBlock (s.blockchain.getLast h) ++ lit "\x7d"), s) := by
  unfold responseLatestMsg
  simp only [Go.bind_apply, getLatestBlock_of_ne_nil s h, Go.pure_apply]

theorem mineBlock_apply (bytes now : GoString) (s : Node) (h : s.blockchain ≠ []) :
    ∃ sent, mineBlock (some bytes) now s =
      (Outcome.fatal "block added: ",
        { blockchain := s.blockchain ++
            [{ index := wrapInt ((s.blockchain.getLast h).index + 1)
               previousHash := (s.blockchain.getLast h).hash
               timestamp := now
               data := bytes
               hash := calculateHash (wrapInt ((s.blockchain.getLast h).index + 1))
                 (s.blockchain.getLast h).hash now bytes }]
          sockets := s.sockets
          sent := sent }) := by
  unfold mineBlock
  simp only [Go.bind_apply, generateNextBlock_apply now bytes s h]
  rw [addBlock_of_valid _ s h (generated_validSuccessor now bytes _)]
  simp only []
  rw [responseLatestMsg_apply _ (by simp)]
  simp only [broadcast, Go.liftM_apply, logFatal]
  exact ⟨_, rfl⟩

theorem mineBlock_of_nil (bytes now : GoString) (s : Node) (h : s.blockchain = []) :
    mineBlock (some bytes) now s = (Outcome.panic "index out of range", s) := by
  unfold mineBlock
  simp only [Go.bind_apply, generateNextBlock_of_nil now bytes s h]

theorem mineBlock_none (now : GoString) (s : Node) :
    mineBlock none now s = (Outcome.ret (), s) := rfl

/-! ## The invariant of the ledger -/

theorem chainLinked_singleton (b : Block) : ChainLinked [b] := by
  intro i h0 h
  simp at h
  omega

theorem chainLinked_append (chain : List Block) (c : Block) (hne : chain ≠ [])
    (hl : ChainLinked chain) (hv : ValidSuccessor c (chain.getLast hne)) :
    ChainLinked (chain ++ [c]) := by
  intro i h0 h
  have hlen : (chain ++ [c]).length = chain.length + 1 := by simp
  by_cases hi : i < chain.length
  · have e1 : (chain ++ [c])[i] = chain[i] := List.getElem_append_left hi
    have e2 : (chain ++ [c])[i - 1] = chain[i - 1] := List.getElem_append_left (by omega)
    rw [e1, e2]
    exact hl i h0 hi
  · have hi2 : i = chain.length := by omega
    subst hi2
    have e1 : (chain ++ [c])[chain.length] = c := by simp
    have e2 : (chain ++ [c])[chain.length - 1] = chain.getLast hne := by
      rw [List.getLast_eq_getElem]
      exact List.getElem_append_left (by omega)
    rw [e1, e2]
    exact hv

/-- What an operation can do to the ledger: nothing, or append one block
that passes the successor checks against the latest block. -/
theorem addBlock_blockchain (c : Block) (s : Node) :
    (addBlock c s).2.blockchain = s.blockchain ∨
      ∃ hne : s.blockchain ≠ [], ValidSuccessor c (s.blockchain.getLast hne) ∧
        (addBlock c s).2.blockchain = s.blockchain ++ [c] := by
  by_cases hne : s.blockchain = []
  · left
    rw [addBlock_of_nil c s hne]
  · by_cases hv : ValidSuccessor c (s.blockchain.getLast hne)
    · right
      exact ⟨hne, hv, by rw [addBlock_of_valid c s hne hv]⟩
    · left
      obtain ⟨m, e⟩ := addBlock_of_invalid c s hne hv
      rw [e]

theorem step_blockchain {s t : Node} (h : Step s t) :
    t.blockchain = s.blockchain ∨
      ∃ (c : Block) (hne : s.blockchain ≠ []), ValidSuccessor c (s.blockchain.getLast hne) ∧
        t.blockchain = s.blockchain ++ [c] := by
  cases h with
  | byMint now data b s1 hg =>
    have hs : s1 = s := by
      by_cases hne : s.blockchain = []
      · rw [generateNextBlock_of_nil now data s hne] at hg
        cases hg
      · rw [generateNextBlock_apply now data s hne] at hg
        cases hg
        rfl
    subst hs
    rcases addBlock_blockchain b s1 with e | ⟨hne, hv, e⟩
    · exact Or.inl e
    · exact Or.inr ⟨b, hne, hv, e⟩
  | byMineBlock body now =>
    cases body with
    | none => exact Or.inl rfl
    | some bytes =>
      by_cases hne : s.blockchain = []
      · left
        rw [mineBlock_of_nil bytes now s hne]
      · right
        obtain ⟨sent, e⟩ := mineBlock_apply bytes now s hne
        exact ⟨_, hne, generated_validSuccessor now bytes _, by rw [e]⟩
  | byAddBlock b =>
    rcases addBlock_blockchain b s with e | ⟨hne, hv, e⟩
    · exact Or.inl e
    · exact Or.inr ⟨b, hne, hv, e⟩
  | byReplaceChain newBlocks =>
    obtain ⟨o, _, e⟩ := replaceChain_apply newBlocks s
    left
    rw [e]
  | byResponse unmarshalled =>
    obtain ⟨o, _, e⟩ := handleBlockChainResponse_apply unmarshalled s
    left
    rw [e]

theorem reachable_invariant {s : Node} (h : Reachable s) :
    s.blockchain ≠ [] ∧ ChainLinked s.blockchain := by
  induction h with
  | init conns => exact ⟨by simp [initialNode], chainLinked_singleton _⟩
  | step _ hstep ih =>
    rcases step_blockchain hstep with e | ⟨c, hne, hv, e⟩
    · rw [e]
      exact ih
    · rw [e]
      exact ⟨by simp, chainLinked_append _ c hne ih.2 hv⟩

/-! ## Arithmetic, digests and the sample ledger -/

theorem wrapInt_of_fits (x : Int) (h1 : -2 ^ 63 ≤ x) (h2 : x < 2 ^ 63) : wrapInt x = x := by
  unfold wrapInt intBits
  omega

theorem Sha256.digest_length (r : Sha256.Regs) : (Sha256.digest r).length = 32 := by
  simp [Sha256.digest, Sha256.wordBytes]

theorem calculateHash_length (index : Int) (previousHash timestamp data : GoString) :
    (calculateHash index previousHash timestamp data).length = 32 := by
  simp [calculateHash, Sha256.sum256, Sha256.digest_length]

/-- The embedding of SHA-256 on the test vector `abc` of FIPS 180-4. -/
theorem Sha256.sum256_abc :
    hexEncodeToString (Sha256.sum256 (lit "abc"))
      = lit "ba7816bf8f01cfea414140de5dae2223b00361a396177a9cb410ff61f20015ad" := by
  decide!

theorem helloBlock_validSuccessor : ValidSuccessor helloBlock GenesisBlock := by
  decide!

theorem reachable_helloNode :
    Reachable { blockchain := [GenesisBlock, helloBlock], sockets := [], sent := [] } := by
  have hg : generateNextBlock (lit "t") (lit "hello") (initialNode [])
      = (Outcome.ret helloBlock, initialNode []) := by
    rw [generateNextBlock_apply _ _ _ (by simp [initialNode])]
    rfl
  have h := Reachable.step (Reachable.init []) (Step.byMint _ _ _ _ _ hg)
  rw [addBlock_of_valid helloBlock (initialNode []) (by simp [initialNode])
    helloBlock_validSuccessor] at h
  exact h

theorem reachable_starts_with_genesis {s : Node} (h : Reachable s) :
    s.blockchain.head? = some GenesisBlock := by
  induction h with
  | init conns => rfl
  | step hprev hstep ih =>
    rcases step_blockchain hstep with e | ⟨c, hne, _, e⟩
    · rw [e]
      exact ih
    · rw [e, List.head?_append_of_ne_nil _ hne]
      exact ih

/-! ## The response handler -/

theorem sortBlocks_ne_nil (decoded : List Block) (h : decoded ≠ []) : sortBlocks decoded ≠ [] := by
  intro e
  have hl : (sortBlocks decoded).length = decoded.length := List.length_insertionSort _ _
  rw [e] at hl
  exact h (List.length_eq_zero.mp hl.symm)

theorem getLast_sortBlocks_mem (decoded : List Block) (h : decoded ≠ []) :
    (sortBlocks decoded).getLast (sortBlocks_ne_nil decoded h) ∈ decoded :=
  (List.perm_insertionSort _ decoded).mem_iff.mp (List.getLast_mem _)

theorem handleBlockChainResponse_none (s : Node) :
    handleBlockChainResponse none s = (Outcome.fatal "Ignored", s) := rfl

theorem handleBlockChainResponse_nil (s : Node) :
    handleBlockChainResponse (some []) s = (Outcome.panic "index out of range", s) := rfl

theorem handleBlockChainResponse_some (decoded : List Block) (s : Node) (hd : decoded ≠ [])
    (hs : s.blockchain ≠ []) :
    handleBlockChainResponse (some decoded) s =
      (if ((sortBlocks decoded).getLast (sortBlocks_ne_nil decoded hd)).index
            > (s.blockchain.getLast hs).index
        then Outcome.fatal "Blockchain Possibly Behind. We got: "
        else Outcome.fatal "Ignored", s) := by
  unfold handleBlockChainResponse
  simp only [Go.bind_apply, Go.liftM_apply, sliceAt_last _ (sortBlocks_ne_nil decoded hd),
    getLatestBlock_of_ne_nil s hs]
  split_ifs <;> rfl

theorem handleBlockChainResponse_of_nil_ledger (decoded : List Block) (s : Node) (hd : decoded ≠ [])
    (hs : s.blockchain = []) :
    handleBlockChainResponse (some decoded) s = (Outcome.panic "index out of range", s) := by
  unfold handleBlockChainResponse
  simp only [Go.bind_apply, Go.liftM_apply, sliceAt_last _ (sortBlocks_ne_nil decoded hd),
    getLatestBlock_of_nil s hs]

theorem handleBlockChainResponse_single_ahead (s : Node) (r latest : Block)
    (hl : s.blockchain.getLast? = some latest) (hidx : r.index > latest.index) :
    handleBlockChainResponse (some [r]) s
      = (Outcome.fatal "Blockchain Possibly Behind. We got: ", s) := by
  have hs : s.blockchain ≠ [] := by
    intro e
    rw [e] at hl
    cases hl
  have e : s.blockchain.getLast hs = latest := by
    rw [List.getLast?_eq_getLast _ hs] at hl
    exact Option.some.inj hl
  have h := handleBlockChainResponse_some [r] s (List.cons_ne_nil _ _) hs
  have hsort : (sortBlocks [r]).getLast (sortBlocks_ne_nil [r] (List.cons_ne_nil _ _)) = r := by
    simp [sortBlocks]
  rw [hsort, e, if_pos hidx] at h
  exact h

theorem wrapInt_genesis_succ : wrapInt (GenesisBlock.index + 1) = 1 := by
  decide

theorem isValidNewBlock_ne_ret_false (c p : Block) : isValidNewBlock c p ≠ Outcome.ret false := by
  rcases isValidNewBlock_cases c p with e | ⟨m, e⟩ <;> rw [e] <;> simp

/-! ## The digest input -/

/-- The byte of a decimal digit, and back. -/
theorem digitByte_toNat (k : Nat) (h : k < 10) :
    (UInt8.ofNat (Nat.digitChar k).toNat).toNat = 48 + k := by
  interval_cases k <;> decide

theorem toDigitsCore_eq (fuel : Nat) :
    ∀ (n : Nat) (ds : List Char), n < fuel → 0 < n →
      Nat.toDigitsCore 10 fuel n ds = ((Nat.digits 10 n).reverse.map Nat.digitChar) ++ ds := by
  induction fuel with
  | zero =>
    intro n ds h
    omega
  | succ fuel ih =>
    intro n ds h h0
    rw [Nat.toDigitsCore]
    have hd : Nat.digits 10 n = (n % 10) :: Nat.digits 10 (n / 10) :=
      Nat.digits_def' (by decide) h0
    by_cases hq : n / 10 = 0
    · simp [hq, hd]
    · have hlt : n / 10 < fuel := by omega
      simp only [hq, if_false]
      rw [ih (n / 10) _ hlt (by omega), hd]
      simp

theorem fmtNat_eq (n : Nat) (h0 : 0 < n) :
    fmtNat n = (Nat.digits 10 n).reverse.map (fun k => UInt8.ofNat (Nat.digitChar k).toNat) := by
  unfold fmtNat Nat.toDigits
  rw [toDigitsCore_eq (n + 1) n [] (by omega) h0]
  simp

theorem fmtNat_zero : fmtNat 0 = [48] := by
  decide

/-- The number a run of digit bytes stands for. -/
theorem fmtNat_decode (n : Nat) :
    Nat.ofDigits 10 ((fmtNat n).map (fun b => b.toNat - 48)).reverse = n := by
  rcases Nat.eq_zero_or_pos n with h | h
  · subst h
    rw [fmtNat_zero]
    decide
  · rw [fmtNat_eq n h, List.map_map]
    have hid : ∀ k ∈ (Nat.digits 10 n).reverse,
        ((fun b : UInt8 => b.toNat - 48) ∘ fun k => UInt8.ofNat (Nat.digitChar k).toNat) k
          = id k := by
      intro k hk
      have hk10 : k < 10 := Nat.digits_lt_base (by decide) (List.mem_reverse.mp hk)
      simp only [Function.comp, id]
      rw [digitByte_toNat k hk10]
      omega
    rw [List.map_congr_left hid, List.map_id, List.reverse_reverse, Nat.ofDigits_digits]

theorem fmtNat_injective (n m : Nat) (h : fmtNat n = fmtNat m) : n = m := by
  rw [← fmtNat_decode n, ← fmtNat_decode m, h]

theorem fmtNat_bytes (n : Nat) : ∀ b ∈ fmtNat n, 48 ≤ b.toNat := by
  intro b hb
  rcases Nat.eq_zero_or_pos n with h | h
  · subst h
    rw [fmtNat_zero] at hb
    rw [List.mem_singleton.mp hb]
    decide
  · rw [fmtNat_eq n h] at hb
    obtain ⟨k, hk, rfl⟩ := List.mem_map.mp hb
    have hk10 : k < 10 := Nat.digits_lt_base (by decide) (List.mem_reverse.mp hk)
    rw [digitByte_toNat k hk10]
    omega

theorem lit_minus : lit "-" = [45] := by
  decide

theorem fmtInt_injective (i j : Int) (h : fmtInt i = fmtInt j) : i = j := by
  unfold fmtInt at h
  rw [lit_minus] at h
  split_ifs at h with hi hj hj
  · have := fmtNat_injective _ _ (List.cons.inj h).2
    omega
  · have hb := fmtNat_bytes j.natAbs 45 (by rw [← h]; exact List.mem_cons_self _ _)
    exact absurd hb (by decide)
  · have hb := fmtNat_bytes i.natAbs 45 (by rw [h]; exact List.mem_cons_self _ _)
    exact absurd hb (by decide)
  · have := fmtNat_injective _ _ h
    omega

theorem hashInput_index (i j : Int) (p t d : GoString) (h : i ≠ j) :
    hashInput i p t d ≠ hashInput j p t d := by
  unfold hashInput
  intro e
  simp only [List.append_assoc] at e
  exact h (fmtInt_injective i j (List.append_cancel_right e))

theorem hashInput_previousHash (i : Int) (p q t d : GoString) (h : p ≠ q) :
    hashInput i p t d ≠ hashInput i q t d := by
  unfold hashInput
  intro e
  simp only [List.append_assoc] at e
  exact h (List.append_cancel_right (List.append_cancel_left e))

theorem hashInput_timestamp (i : Int) (p t u d : GoString) (h : t ≠ u) :
    hashInput i p t d ≠ hashInput i p u d := by
  unfold hashInput
  intro e
  simp only [List.append_assoc] at e
  exact h (List.append_cancel_right (List.append_cancel_left (List.append_cancel_left e)))

theorem hashInput_data (i : Int) (p t d c : GoString) (h : d ≠ c) :
    hashInput i p t d ≠ hashInput i p t c := by
  unfold hashInput
  intro e
  exact h (List.append_cancel_left e)

/-! ## Chains with one block changed -/

theorem isValidChainLoop_cases (chain : List Block) :
    ∀ (n i : Nat) (temp : List Block), i + n = chain.length → 1 ≤ i → temp = chain.take i →
      (isValidChainLoop chain n i temp = Outcome.ret true ∨
        ∃ m, isValidChainLoop chain n i temp = Outcome.fatal m) := by
  intro n
  induction n with
  | zero =>
    intro i temp _ _ _
    exact Or.inl rfl
  | succ n ih =>
    intro i temp hn h1 ht
    have hi : i < chain.length := by omega
    have hlen : temp.length = i := by
      rw [ht, List.length_take]
      omega
    have e1 : sliceAt chain (i : Int) = Outcome.ret chain[i] := sliceAt_natCast _ _ hi
    have e2 : sliceAt temp ((i : Int) - 1) = Outcome.ret (chain[i - 1]) := by
      rw [sliceAt_natCast_sub_one temp i h1 (by omega)]
      subst ht
      simp [List.getElem_take]
    rw [isValidChainLoop]
    simp only [e1, e2, Outcome.ret_bind]
    rcases isValidNewBlock_cases chain[i] (chain[i - 1]) with hv | ⟨m, hv⟩
    · rw [hv]
      simp only [Outcome.ret_bind, if_true]
      exact ih (i + 1) _ (by omega) (by omega)
        (by rw [ht, List.take_succ, List.getElem?_eq_getElem hi]; rfl)
    · rw [hv]
      exact Or.inr ⟨m, rfl⟩

theorem isValidChain_cons_ret_true (b0 : Block) (rest : List Block) :
    isValidChain (b0 :: rest) = Outcome.ret true ↔
      ∀ (j : Nat) (_ : 1 ≤ j) (h : j < (b0 :: rest).length),
        isValidNewBlock (b0 :: rest)[j] ((b0 :: rest)[j - 1]) = Outcome.ret true := by
  rw [isValidChain_cons]
  exact isValidChainLoop_ret_true (b0 :: rest) rest.length 1 [b0]
    (by simp [Nat.add_comm]) le_rfl (by simp)

theorem isValidChain_cons_cases (b0 : Block) (rest : List Block) :
    isValidChain (b0 :: rest) = Outcome.ret true ∨
      ∃ m, isValidChain (b0 :: rest) = Outcome.fatal m := by
  rw [isValidChain_cons]
  exact isValidChainLoop_cases (b0 :: rest) rest.length 1 [b0]
    (by simp [Nat.add_comm]) le_rfl (by simp)

theorem not_validSuccessor_of_differs (b changed p : Block) (hv : ValidSuccessor b p)
    (hd : DiffersInOneField b changed)
    (hcol : calculateHash changed.index changed.previousHash changed.timestamp changed.data
        = calculateHash b.index b.previousHash b.timestamp b.data →
      hashInput changed.index changed.previousHash changed.timestamp changed.data
        = hashInput b.index b.previousHash b.timestamp b.data) :
    ¬ ValidSuccessor changed p := by
  obtain ⟨v1, v2, v3⟩ := hv
  rintro ⟨w1, w2, w3⟩
  rcases hd with ⟨hne, e⟩ | ⟨hne, e⟩ | ⟨hne, e⟩ | ⟨hne, e⟩ | ⟨hne, e⟩
  · exact hne (by rw [w1, v1])
  · exact hne (by rw [w2, v2])
  · have h1 : changed.index = b.index := by rw [e]
    have h2 : changed.previousHash = b.previousHash := by rw [e]
    have h3 : changed.data = b.data := by rw [e]
    have h4 : changed.hash = b.hash := by rw [e]
    have hh := hcol (by rw [w3, h4, v3])
    rw [h1, h2, h3] at hh
    exact hashInput_timestamp _ _ _ _ _ hne hh
  · have h1 : changed.index = b.index := by rw [e]
    have h2 : changed.previousHash = b.previousHash := by rw [e]
    have h3 : changed.timestamp = b.timestamp := by rw [e]
    have h4 : changed.hash = b.hash := by rw [e]
    have hh := hcol (by rw [w3, h4, v3])
    rw [h1, h2, h3] at hh
    exact hashInput_data _ _ _ _ _ hne hh
  · have h1 : changed.index = b.index := by rw [e]
    have h2 : changed.previousHash = b.previousHash := by rw [e]
    have h3 : changed.timestamp = b.timestamp := by rw [e]
    have h4 : changed.data = b.data := by rw [e]
    rw [h1, h2, h3, h4, v3] at w3
    exact hne w3.symm

theorem isValidChain_set_exits (chain : List Block) (i : Nat) (h1 : 1 ≤ i) (hi : i < chain.length)
    (changed : Block) (hv : isValidChain chain = Outcome.ret true)
    (hd : DiffersInOneField chain[i] changed)
    (hcol : calculateHash changed.index changed.previousHash changed.timestamp changed.data
        = calculateHash (chain[i]).index (chain[i]).previousHash (chain[i]).timestamp
            (chain[i]).data →
      hashInput changed.index changed.previousHash changed.timestamp changed.data
        = hashInput (chain[i]).index (chain[i]).previousHash (chain[i]).timestamp
            (chain[i]).data) :
    ∃ m, isValidChain (chain.set i changed) = Outcome.fatal m := by
  cases chain with
  | nil => simp at hi
  | cons b0 rest =>
    obtain ⟨k, rfl⟩ : ∃ k, i = k + 1 := ⟨i - 1, by omega⟩
    have hvalid := (isValidChain_cons_ret_true b0 rest).mp hv (k + 1) h1 hi
    have hvs := (isValidNewBlock_ret_true _ _).mp hvalid
    have hbad := not_validSuccessor_of_differs _ changed _ hvs hd hcol
    rw [List.set_cons_succ]
    rcases isValidChain_cons_cases b0 (rest.set k changed) with e | e
    · exfalso
      have hlen : k + 1 < (b0 :: rest.set k changed).length := by
        simpa using hi
      have h2 := (isValidChain_cons_ret_true b0 (rest.set k changed)).mp e (k + 1) h1 hlen
      have h3 := (isValidNewBlock_ret_true _ _).mp h2
      apply hbad
      have e1 : (b0 :: rest.set k changed)[k + 1] = changed := by
        simp
      have e2 : (b0 :: rest.set k changed)[k + 1 - 1] = (b0 :: rest)[k + 1 - 1] := by
        cases k with
        | zero => rfl
        | succ k =>
          simp only [Nat.add_sub_cancel, List.getElem_cons_succ]
          exact List.getElem_set_ne (by omega) _
      rw [e1, e2] at h3
      exact h3
    · exact e

/-! ## The claims -/

/-- C1: `isValidNewBlock(c, p)` returns true if and only if all three checks
hold: `c.index` equals `p.index + 1` as Go computes it on `int`, `c.previousHash`
equals `p.hash`, and `calculateHash(c.index, c.previousHash, c.timestamp, c.data)`
equals `c.hash`.  Whenever `p.index + 1` fits an `int`, the first check is the
equation `c.index = p.index + 1` of the integers. -/
theorem isValidNewBlock_returns_true_iff (c p : Block) :
    (isValidNewBlock c p = Outcome.ret true ↔
      c.index = wrapInt (p.index + 1) ∧ c.previousHash = p.hash ∧
        calculateHash c.index c.previousHash c.timestamp c.data = c.hash) ∧
    (-2 ^ 63 ≤ p.index + 1 → p.index + 1 < 2 ^ 63 →
      (isValidNewBlock c p = Outcome.ret true ↔
        c.index = p.index + 1 ∧ c.previousHash = p.hash ∧
          calculateHash c.index c.previousHash c.timestamp c.data = c.hash)) := by
  refine ⟨isValidNewBlock_ret_true c p, fun h1 h2 => ?_⟩
  rw [isValidNewBlock_ret_true c p, ValidSuccessor, wrapInt_of_fits _ h1 h2]

/-- C2, evaluated on the code: a chain whose first block is the genesis block
with one byte of `data` changed is accepted by `isValidChain`, alone and with a
successor minted on it; so is every chain of one block, whatever the block.  The
comparison with `GenesisBlock` is made on the JSON encodings, which are the empty
object for every block. -/
theorem isValidChain_accepts_altered_genesis :
    alteredGenesis ≠ GenesisBlock ∧
      isValidChain [alteredGenesis] = Outcome.ret true ∧
      isValidChain [alteredGenesis,
        { index := 1, previousHash := alteredGenesis.hash, timestamp := lit "t", data := lit "x",
          hash := calculateHash 1 alteredGenesis.hash (lit "t") (lit "x") }] = Outcome.ret true ∧
      ∀ b : Block, isValidChain [b] = Outcome.ret true := by
  refine ⟨by decide, by decide, by decide!, fun b => ?_⟩
  rw [isValidChain_cons]
  rfl

/-- C3: in every state reachable from `[GenesisBlock]` by local mints, the
`/mineBlock` handler, `addBlock`, `replaceChain` and `handleBlockChainResponse`
(the state a call leaves counts however the call ends), every block at a position `i > 0` is a valid successor of the block at `i - 1`:
its index is the index before it plus one (as Go computes it, and as an integer
whenever that sum fits an `int`), its `previousHash` is the hash before it, its
hash recomputes from its own fields, and `isValidNewBlock` returns true on the
pair. -/
theorem reachable_blocks_are_valid_successors (s : Node) (hr : Reachable s) (i : Nat)
    (h0 : 0 < i) (h : i < s.blockchain.length) :
    (s.blockchain[i]).index = wrapInt ((s.blockchain[i - 1]).index + 1) ∧
      (-2 ^ 63 ≤ (s.blockchain[i - 1]).index + 1 → (s.blockchain[i - 1]).index + 1 < 2 ^ 63 →
        (s.blockchain[i]).index = (s.blockchain[i - 1]).index + 1) ∧
      (s.blockchain[i]).previousHash = (s.blockchain[i - 1]).hash ∧
      calculateHash (s.blockchain[i]).index (s.blockchain[i]).previousHash
        (s.blockchain[i]).timestamp (s.blockchain[i]).data = (s.blockchain[i]).hash ∧
      isValidNewBlock s.blockchain[i] (s.blockchain[i - 1]) = Outcome.ret true := by
  have hv := (reachable_invariant hr).2 i h0 h
  refine ⟨hv.1, fun h1 h2 => ?_, hv.2.1, hv.2.2, (isValidNewBlock_ret_true _ _).mpr hv⟩
  rw [hv.1, wrapInt_of_fits _ h1 h2]

/-- The claim C3 on the ledger after one mint of `hello`, at position 1. -/
theorem reachable_blocks_are_valid_successors_witness :
    helloBlock.index = wrapInt (GenesisBlock.index + 1) ∧
      (-2 ^ 63 ≤ GenesisBlock.index + 1 → GenesisBlock.index + 1 < 2 ^ 63 →
        helloBlock.index = GenesisBlock.index + 1) ∧
      helloBlock.previousHash = GenesisBlock.hash ∧
      calculateHash helloBlock.index helloBlock.previousHash helloBlock.timestamp
        helloBlock.data = helloBlock.hash ∧
      isValidNewBlock helloBlock GenesisBlock = Outcome.ret true :=
  reachable_blocks_are_valid_successors
    { blockchain := [GenesisBlock, helloBlock], sockets := [], sent := [] }
    reachable_helloNode 1 (by decide) (by decide)

/-- C4, evaluated on the code: in the initial state the ledger holds
`GenesisBlock`, whose `hash` is not `calculateHash` of its fields: it is the
hexadecimal text (64 characters) of the digest of which `calculateHash` returns
the 32 raw bytes.  The genesis block stays first in every reachable state, and
every block after it does satisfy `hash = calculateHash(...)`. -/
theorem genesis_hash_is_not_calculateHash :
    Reachable (initialNode []) ∧ GenesisBlock ∈ (initialNode []).blockchain ∧
      GenesisBlock.hash ≠ calculateHash GenesisBlock.index GenesisBlock.previousHash
        GenesisBlock.timestamp GenesisBlock.data ∧
      GenesisBlock.hash = hexEncodeToString (calculateHash GenesisBlock.index
        GenesisBlock.previousHash GenesisBlock.timestamp GenesisBlock.data) ∧
      (∀ s : Node, Reachable s → s.blockchain.head? = some GenesisBlock) ∧
      (∀ s : Node, Reachable s → ∀ (i : Nat) (_ : 0 < i) (h : i < s.blockchain.length),
        (s.blockchain[i]).hash = calculateHash (s.blockchain[i]).index
          (s.blockchain[i]).previousHash (s.blockchain[i]).timestamp (s.blockchain[i]).data) := by
  refine ⟨Reachable.init [], by simp [initialNode], ?_, by decide!,
    fun s hs => reachable_starts_with_genesis hs,
    fun s hs i h0 h => ((reachable_invariant hs).2 i h0 h).2.2.symm⟩
  intro h
  have hl := congrArg List.length h
  rw [calculateHash_length] at hl
  revert hl
  decide

/-- C5: for every state of the ledger and every candidate block, if the
candidate fails one of the three successor checks against the latest block,
`addBlock` leaves the ledger (and the rest of the node) as it was (the call ends
in the `log.Fatal` of `isValidNewBlock`), and if it passes all three, `addBlock`
returns with the ledger being the old ledger with the candidate appended.  On an
empty ledger, which has no latest block, nothing changes either. -/
theorem addBlock_appends_or_leaves (s : Node) (c : Block) :
    (∀ latest : Block, s.blockchain.getLast? = some latest →
      ((c.index = wrapInt (latest.index + 1) ∧ c.previousHash = latest.hash ∧
          calculateHash c.index c.previousHash c.timestamp c.data = c.hash) →
        addBlock c s = (Outcome.ret (), { s with blockchain := s.blockchain ++ [c] })) ∧
      (¬ (c.index = wrapInt (latest.index + 1) ∧ c.previousHash = latest.hash ∧
          calculateHash c.index c.previousHash c.timestamp c.data = c.hash) →
        (addBlock c s).2 = s ∧ ∃ m, addBlock c s = (Outcome.fatal m, s))) ∧
    (s.blockchain = [] → (addBlock c s).2 = s) := by
  refine ⟨fun latest hl => ?_, fun hnil => by rw [addBlock_of_nil c s hnil]⟩
  have hne : s.blockchain ≠ [] := by
    intro e
    rw [e] at hl
    cases hl
  have e : s.blockchain.getLast hne = latest := by
    rw [List.getLast?_eq_getLast _ hne] at hl
    exact Option.some.inj hl
  constructor
  · intro hv
    exact addBlock_of_valid c s hne (by rw [e]; exact hv)
  · intro hv
    obtain ⟨m, hm⟩ := addBlock_of_invalid c s hne (by rw [e]; exact hv)
    exact ⟨by rw [hm], m, hm⟩

/-- The claim C5 on the initial ledger: the block minted for `hello` is
appended, the altered genesis block (index 0) is not. -/
theorem addBlock_appends_or_leaves_witness :
    addBlock helloBlock (initialNode [])
        = (Outcome.ret (), { initialNode [] with blockchain := [GenesisBlock] ++ [helloBlock] }) ∧
      (addBlock alteredGenesis (initialNode [])).2 = initialNode [] :=
  ⟨((addBlock_appends_or_leaves (initialNode []) helloBlock).1 GenesisBlock rfl).1
      helloBlock_validSuccessor,
    (((addBlock_appends_or_leaves (initialNode []) alteredGenesis).1 GenesisBlock rfl).2
      (by decide)).1⟩

/-- C6, evaluated on the code: on the ledger `[GenesisBlock]`, the candidate
`[GenesisBlock, helloBlock]` is valid and longer, and `replaceChain` ends in
`log.Fatal("Received blockchain valid")` with the ledger still `[GenesisBlock]`:
the assignment of the candidate comes after the exit.  No call of `replaceChain`
changes the node. -/
theorem replaceChain_exits_before_replacing :
    isValidChain [GenesisBlock, helloBlock] = Outcome.ret true ∧
      [GenesisBlock, helloBlock].length > (initialNode []).blockchain.length ∧
      replaceChain [GenesisBlock, helloBlock] (initialNode [])
        = (Outcome.fatal "Received blockchain valid", initialNode []) ∧
      ∀ (newBlocks : List Block) (s : Node), (replaceChain newBlocks s).2 = s := by
  refine ⟨by decide!, by decide, by decide!, fun newBlocks s => ?_⟩
  obtain ⟨o, _, e⟩ := replaceChain_apply newBlocks s
  rw [e]

/-- C7: on a chain whose first block is `GenesisBlock`, `isValidChain` returns
true if and only if `isValidNewBlock(chain[i], chain[i-1])` returns true for
every `i` from 1 to `len - 1`. -/
theorem isValidChain_returns_true_iff (rest : List Block) :
    isValidChain (GenesisBlock :: rest) = Outcome.ret true ↔
      ∀ (i : Nat) (_ : 1 ≤ i) (h : i < (GenesisBlock :: rest).length),
        isValidNewBlock (GenesisBlock :: rest)[i] ((GenesisBlock :: rest)[i - 1])
          = Outcome.ret true := by
  rw [isValidChain_cons]
  exact isValidChainLoop_ret_true (GenesisBlock :: rest) rest.length 1 [GenesisBlock]
    (by simp [Nat.add_comm]) le_rfl (by simp)

/-- C8, evaluated on the code: on the empty chain `isValidChain` does not return
false; `blockchainToValidate[0]` panics with an index out of range. -/
theorem isValidChain_panics_on_empty :
    isValidChain [] = Outcome.panic "index out of range" ∧
      isValidChain [] ≠ Outcome.ret false := by
  rw [isValidChain_nil]
  exact ⟨rfl, by simp⟩

/-- C9: in every state reachable from `[GenesisBlock]` by mints, `addBlock`,
`replaceChain` and `handleBlockChainResponse` the ledger is non-empty, and
`getLatestBlock` returns its last block without touching the node. -/
theorem reachable_ledger_nonempty (s : Node) (hr : Reachable s) :
    s.blockchain ≠ [] ∧
      ∃ latest : Block, s.blockchain.getLast? = some latest ∧
        getLatestBlock s = (Outcome.ret latest, s) := by
  have hne := (reachable_invariant hr).1
  exact ⟨hne, s.blockchain.getLast hne, List.getLast?_eq_getLast _ hne,
    getLatestBlock_of_ne_nil s hne⟩

/-- The claim C9 on the initial state. -/
theorem reachable_ledger_nonempty_witness :
    (initialNode []).blockchain ≠ [] ∧
      ∃ latest : Block, (initialNode []).blockchain.getLast? = some latest ∧
        getLatestBlock (initialNode []) = (Outcome.ret latest, initialNode []) :=
  reachable_ledger_nonempty (initialNode []) (Reachable.init [])

/-- C10: on a non-empty ledger `generateNextBlock(data)` returns a block whose
index is the latest index plus one (as Go computes it, and as an integer
whenever that sum fits an `int`), whose `previousHash` is the latest hash, whose
timestamp is the current time, whose data is `data` and whose hash is
`calculateHash` of its own four fields; `isValidNewBlock` returns true on it
against the latest block, `addBlock` of it returns with exactly that block
appended, and the ledger the `/mineBlock` handler leaves is the same. -/
theorem generateNextBlock_mints_successor (s : Node) (now data : GoString)
    (hne : s.blockchain ≠ []) :
    ∃ b : Block,
      generateNextBlock now data s = (Outcome.ret b, s) ∧
      b.index = wrapInt ((s.blockchain.getLast hne).index + 1) ∧
      (-2 ^ 63 ≤ (s.blockchain.getLast hne).index + 1 →
        (s.blockchain.getLast hne).index + 1 < 2 ^ 63 →
        b.index = (s.blockchain.getLast hne).index + 1) ∧
      b.previousHash = (s.blockchain.getLast hne).hash ∧
      b.timestamp = now ∧
      b.data = data ∧
      b.hash = calculateHash b.index b.previousHash b.timestamp b.data ∧
      isValidNewBlock b (s.blockchain.getLast hne) = Outcome.ret true ∧
      addBlock b s = (Outcome.ret (), { s with blockchain := s.blockchain ++ [b] }) ∧
      (mineBlock (some data) now s).2.blockchain = s.blockchain ++ [b] := by
  have hv := generated_validSuccessor now data (s.blockchain.getLast hne)
  refine ⟨_, generateNextBlock_apply now data s hne, rfl, fun h1 h2 => wrapInt_of_fits _ h1 h2,
    rfl, rfl, rfl, rfl, (isValidNewBlock_ret_true _ _).mpr hv, addBlock_of_valid _ s hne hv, ?_⟩
  obtain ⟨sent, e⟩ := mineBlock_apply data now s hne
  rw [e]

/-- The claim C10 on the initial ledger, for the data `hello` at the time `t`. -/
theorem generateNextBlock_mints_successor_witness :
    ∃ b : Block,
      generateNextBlock (lit "t") (lit "hello") (initialNode []) = (Outcome.ret b, initialNode []) ∧
      b.index = wrapInt (GenesisBlock.index + 1) ∧
      (-2 ^ 63 ≤ GenesisBlock.index + 1 → GenesisBlock.index + 1 < 2 ^ 63 →
        b.index = GenesisBlock.index + 1) ∧
      b.previousHash = GenesisBlock.hash ∧
      b.timestamp = lit "t" ∧
      b.data = lit "hello" ∧
      b.hash = calculateHash b.index b.previousHash b.timestamp b.data ∧
      isValidNewBlock b GenesisBlock = Outcome.ret true ∧
      addBlock b (initialNode [])
        = (Outcome.ret (), { initialNode [] with blockchain := [GenesisBlock] ++ [b] }) ∧
      (mineBlock (some (lit "hello")) (lit "t") (initialNode [])).2.blockchain
        = [GenesisBlock] ++ [b] :=
  generateNextBlock_mints_successor (initialNode []) (lit "t") (lit "hello")
    (List.cons_ne_nil GenesisBlock [])

/-- C11, evaluated on the code: on the ledger `[GenesisBlock]` a mint of any data
`d` yields `[GenesisBlock, b]` with `b.index = 1`, `b.previousHash` the genesis
hash and `b.data = d`, as the claim says of node A.  Node B, on `[GenesisBlock]`,
handling the response that carries only that block (here the block minted for
`hello`) ends in `log.Fatal("Blockchain Possibly Behind. ...")` with its ledger
still `[GenesisBlock]`, not the ledger of A.  That is for the block as sent; what
`json.Unmarshal` really yields for a payload of one block is `[Block{}]`, on
which, as on a decoding error, B ends in `log.Fatal("Ignored")`.  Whatever the
response decodes to, the ledger of B stays `[GenesisBlock]`. -/
theorem response_with_minted_block_is_not_appended :
    (∀ now d : GoString, ∃ b : Block,
      generateNextBlock now d (initialNode []) = (Outcome.ret b, initialNode []) ∧
      (addBlock b (initialNode [])).2.blockchain = [GenesisBlock, b] ∧
      b.index = 1 ∧ b.previousHash = GenesisBlock.hash ∧ b.data = d) ∧
    generateNextBlock (lit "t") (lit "hello") (initialNode [])
      = (Outcome.ret helloBlock, initialNode []) ∧
    (addBlock helloBlock (initialNode [])).2.blockchain = [GenesisBlock, helloBlock] ∧
    handleBlockChainResponse (some [helloBlock]) (initialNode [])
      = (Outcome.fatal "Blockchain Possibly Behind. We got: ", initialNode []) ∧
    (handleBlockChainResponse (some [helloBlock]) (initialNode [])).2.blockchain
      ≠ (addBlock helloBlock (initialNode [])).2.blockchain ∧
    unmarshalBlocks (some 1) = some [zeroBlock] ∧
    handleBlockChainResponse (unmarshalBlocks (some 1)) (initialNode [])
      = (Outcome.fatal "Ignored", initialNode []) ∧
    handleBlockChainResponse (unmarshalBlocks none) (initialNode [])
      = (Outcome.fatal "Ignored", initialNode []) ∧
    (handleBlockChainResponse (unmarshalBlocks (some 1)) (initialNode [])).2.blockchain
      ≠ (addBlock helloBlock (initialNode [])).2.blockchain ∧
    ∀ unmarshalled : Option (List Block),
      (handleBlockChainResponse unmarshalled (initialNode [])).2.blockchain = [GenesisBlock] := by
  have hne : (initialNode []).blockchain ≠ [] := List.cons_ne_nil _ _
  refine ⟨fun now d => ?_, ?_, by decide!, by decide!, by decide!, rfl, by decide, rfl,
    by decide!, fun u => ?_⟩
  · refine ⟨_, generateNextBlock_apply now d _ hne, ?_, wrapInt_genesis_succ, rfl, rfl⟩
    rw [addBlock_of_valid _ _ hne (generated_validSuccessor now d _)]
    rfl
  · rw [generateNextBlock_apply _ _ _ hne]
    rfl
  · obtain ⟨o, _, e⟩ := handleBlockChainResponse_apply u (initialNode [])
    rw [e]
    rfl

/-- C12, evaluated on the code: `fiveBlocks` is a valid chain of 5 blocks, longer
than the ledger `[GenesisBlock]`, and its last block does not link to the
genesis hash.  Handling the response that carries its blocks, in order or
reversed, ends in `log.Fatal("Blockchain Possibly Behind. ...")` with the ledger
still `[GenesisBlock]`, not `fiveBlocks`.  That is for the blocks as sent; what
`json.Unmarshal` really yields for a payload of five blocks is five `Block{}`, on
which the call ends in `log.Fatal("Ignored")`, the ledger again `[GenesisBlock]`.
No call of `handleBlockChainResponse` changes the node. -/
theorem response_with_longer_chain_is_not_adopted :
    isValidChain fiveBlocks = Outcome.ret true ∧
    fiveBlocks.length = 5 ∧
    fiveBlocks.length > (initialNode []).blockchain.length ∧
    fiveBlocks.getLast?.map Block.previousHash ≠ some GenesisBlock.hash ∧
    handleBlockChainResponse (some fiveBlocks) (initialNode [])
      = (Outcome.fatal "Blockchain Possibly Behind. We got: ", initialNode []) ∧
    handleBlockChainResponse (some fiveBlocks.reverse) (initialNode [])
      = (Outcome.fatal "Blockchain Possibly Behind. We got: ", initialNode []) ∧
    (handleBlockChainResponse (some fiveBlocks) (initialNode [])).2.blockchain ≠ fiveBlocks ∧
    unmarshalBlocks (some 5) = some [zeroBlock, zeroBlock, zeroBlock, zeroBlock, zeroBlock] ∧
    handleBlockChainResponse (unmarshalBlocks (some 5)) (initialNode [])
      = (Outcome.fatal "Ignored", initialNode []) ∧
    (handleBlockChainResponse (unmarshalBlocks (some 5)) (initialNode [])).2.blockchain
      ≠ fiveBlocks ∧
    ∀ (unmarshalled : Option (List Block)) (s : Node),
      (handleBlockChainResponse unmarshalled s).2 = s := by
  refine ⟨by decide!, by decide, by decide, by decide!, by decide!, by decide!, by decide!,
    rfl, by decide, by decide!, fun u s => ?_⟩
  obtain ⟨o, _, e⟩ := handleBlockChainResponse_apply u s
  rw [e]

/-- C13: for every state of the ledger and every non-empty list of received
blocks none of which has an index above the index of the latest block held,
`handleBlockChainResponse` leaves the ledger unchanged and writes no message
(the call ends in `log.Fatal("Ignored")`). -/
theorem handleBlockChainResponse_ignores_older (s : Node) (blocks : List Block) (latest : Block)
    (hne : blocks ≠ []) (hl : s.blockchain.getLast? = some latest)
    (hidx : ∀ b ∈ blocks, b.index ≤ latest.index) :
    (handleBlockChainResponse (some blocks) s).2.blockchain = s.blockchain ∧
      (handleBlockChainResponse (some blocks) s).2.sent = s.sent ∧
      handleBlockChainResponse (some blocks) s = (Outcome.fatal "Ignored", s) := by
  have hs : s.blockchain ≠ [] := by
    intro e
    rw [e] at hl
    cases hl
  have e : s.blockchain.getLast hs = latest := by
    rw [List.getLast?_eq_getLast _ hs] at hl
    exact Option.some.inj hl
  have hle := hidx _ (getLast_sortBlocks_mem blocks hne)
  have h := handleBlockChainResponse_some blocks s hne hs
  rw [e, if_neg (by omega)] at h
  rw [h]
  exact ⟨rfl, rfl, rfl⟩

/-- The claim C13 on a node that already holds the block minted for `hello` and
is handed the response carrying that block once more. -/
theorem handleBlockChainResponse_ignores_older_witness :
    (handleBlockChainResponse (some [helloBlock])
        { blockchain := [GenesisBlock, helloBlock], sockets := [], sent := [] }).2.blockchain
      = [GenesisBlock, helloBlock] ∧
      (handleBlockChainResponse (some [helloBlock])
        { blockchain := [GenesisBlock, helloBlock], sockets := [], sent := [] }).2.sent = [] ∧
      handleBlockChainResponse (some [helloBlock])
        { blockchain := [GenesisBlock, helloBlock], sockets := [], sent := [] }
        = (Outcome.fatal "Ignored",
            { blockchain := [GenesisBlock, helloBlock], sockets := [], sent := [] }) :=
  handleBlockChainResponse_ignores_older
    { blockchain := [GenesisBlock, helloBlock], sockets := [], sent := [] } [helloBlock]
    helloBlock (List.cons_ne_nil _ _) rfl
    (fun b hb => by rw [List.mem_singleton.mp hb])

/-- C14, evaluated on the code: `[GenesisBlock, helloBlock]` is valid, and with
any one field of its block 1 replaced `isValidChain` does not return false: it
ends in the `log.Fatal` of `isValidNewBlock`.  So it is for every valid chain and
every position `i ≥ 1`: with one field of `chain[i]` replaced by a different
value (for `timestamp` and `data`, SHA-256 having no collision on the two digest
inputs), `isValidChain` ends in `log.Fatal`, returning neither false nor true. -/
theorem isValidChain_exits_on_changed_block :
    isValidChain [GenesisBlock, helloBlock] = Outcome.ret true ∧
    isValidChain [GenesisBlock, { helloBlock with index := 2 }]
      = Outcome.fatal "Wrong Block: invalid index" ∧
    isValidChain [GenesisBlock, { helloBlock with previousHash := lit "0" }]
      = Outcome.fatal "Wrong Block: invalid previousHash" ∧
    isValidChain [GenesisBlock, { helloBlock with timestamp := lit "u" }]
      = Outcome.fatal "Wrong Block: invalid hash: " ∧
    isValidChain [GenesisBlock, { helloBlock with data := lit "hellp" }]
      = Outcome.fatal "Wrong Block: invalid hash: " ∧
    isValidChain [GenesisBlock, { helloBlock with hash := lit "0" }]
      = Outcome.fatal "Wrong Block: invalid hash: " ∧
    ∀ (chain : List Block) (i : Nat) (_ : 1 ≤ i) (hi : i < chain.length) (changed : Block),
      isValidChain chain = Outcome.ret true →
      DiffersInOneField chain[i] changed →
      (calculateHash changed.index changed.previousHash changed.timestamp changed.data
          = calculateHash (chain[i]).index (chain[i]).previousHash (chain[i]).timestamp
              (chain[i]).data →
        hashInput changed.index changed.previousHash changed.timestamp changed.data
          = hashInput (chain[i]).index (chain[i]).previousHash (chain[i]).timestamp
              (chain[i]).data) →
      (∃ m, isValidChain (chain.set i changed) = Outcome.fatal m) ∧
        isValidChain (chain.set i changed) ≠ Outcome.ret false ∧
        isValidChain (chain.set i changed) ≠ Outcome.ret true := by
  refine ⟨by decide!, by decide!, by decide!, by decide!, by decide!, by decide!, ?_⟩
  intro chain i h1 hi changed hv hd hcol
  obtain ⟨m, e⟩ := isValidChain_set_exits chain i h1 hi changed hv hd hcol
  rw [e]
  exact ⟨⟨m, rfl⟩, by simp, by simp⟩

/-- C15, counterexample: the tuples `(1, "23", "t", "d")` and `(12, "3", "t", "d")`
differ (in `index` and in `previousHash`) and have the same digest input
`"123td"`, hence the same hash; so do `(0, "a", "b", "c")` and
`(0, "ab", "", "c")`. -/
theorem hashInput_collides_across_fields :
    ((1 : Int), lit "23", lit "t", lit "d") ≠ ((12 : Int), lit "3", lit "t", lit "d") ∧
    hashInput 1 (lit "23") (lit "t") (lit "d") = hashInput 12 (lit "3") (lit "t") (lit "d") ∧
    calculateHash 1 (lit "23") (lit "t") (lit "d")
      = calculateHash 12 (lit "3") (lit "t") (lit "d") ∧
    ((0 : Int), lit "a", lit "b", lit "c") ≠ ((0 : Int), lit "ab", lit "", lit "c") ∧
    hashInput 0 (lit "a") (lit "b") (lit "c") = hashInput 0 (lit "ab") (lit "") (lit "c") := by
  have h1 : hashInput 1 (lit "23") (lit "t") (lit "d")
      = hashInput 12 (lit "3") (lit "t") (lit "d") := by decide
  refine ⟨by decide, h1, ?_, by decide, by decide⟩
  unfold calculateHash
  rw [h1]

/-- C15, amended: the digest input is the plain concatenation of the decimal
index, `previousHash`, `timestamp` and `data`, and two tuples that differ in
exactly one of the four fields have different digest inputs. -/
theorem hashInput_differs_when_one_field_differs (i j : Int) (p q t u d c : GoString) :
    (i ≠ j → hashInput i p t d ≠ hashInput j p t d) ∧
    (p ≠ q → hashInput i p t d ≠ hashInput i q t d) ∧
    (t ≠ u → hashInput i p t d ≠ hashInput i p u d) ∧
    (d ≠ c → hashInput i p t d ≠ hashInput i p t c) ∧
    hashInput i p t d = fmtInt i ++ p ++ t ++ d :=
  ⟨hashInput_index i j p t d, hashInput_previousHash i p q t d, hashInput_timestamp i p t u d,
    hashInput_data i p t d c, rfl⟩

/-- The amended claim C15 on the tuple `(1, "23", "t", "d")`, each field changed
in turn. -/
theorem hashInput_differs_when_one_field_differs_witness :
    hashInput 1 (lit "23") (lit "t") (lit "d") ≠ hashInput 12 (lit "23") (lit "t") (lit "d") ∧
    hashInput 1 (lit "23") (lit "t") (lit "d") ≠ hashInput 1 (lit "3") (lit "t") (lit "d") ∧
    hashInput 1 (lit "23") (lit "t") (lit "d") ≠ hashInput 1 (lit "23") (lit "u") (lit "d") ∧
    hashInput 1 (lit "23") (lit "t") (lit "d") ≠ hashInput 1 (lit "23") (lit "t") (lit "e") :=
  ⟨(hashInput_differs_when_one_field_differs 1 12 (lit "23") (lit "3") (lit "t") (lit "u")
      (lit "d") (lit "e")).1 (by decide),
    (hashInput_differs_when_one_field_differs 1 12 (lit "23") (lit "3") (lit "t") (lit "u")
      (lit "d") (lit "e")).2.1 (by decide),
    (hashInput_differs_when_one_field_differs 1 12 (lit "23") (lit "3") (lit "t") (lit "u")
      (lit "d") (lit "e")).2.2.1 (by decide),
    (hashInput_differs_when_one_field_differs 1 12 (lit "23") (lit "3") (lit "t") (lit "u")
      (lit "d") (lit "e")).2.2.2.1 (by decide)⟩

/-- C16, evaluated on the code: a candidate that fails the index check, the
linkage check or the hash check makes `isValidNewBlock` end in `log.Fatal`
instead of returning false, and `addBlock` and `isValidChain` end with it.
`isValidNewBlock` returns false on no input and exits on every failed check;
`replaceChain` and `handleBlockChainResponse` never return normally. -/
theorem validation_failure_exits_the_process :
    isValidNewBlock alteredGenesis GenesisBlock = Outcome.fatal "Wrong Block: invalid index" ∧
    isValidNewBlock { helloBlock with previousHash := lit "0" } GenesisBlock
      = Outcome.fatal "Wrong Block: invalid previousHash" ∧
    isValidNewBlock { helloBlock with data := lit "bye" } GenesisBlock
      = Outcome.fatal "Wrong Block: invalid hash: " ∧
    addBlock alteredGenesis (initialNode [])
      = (Outcome.fatal "Wrong Block: invalid index", initialNode []) ∧
    isValidChain [GenesisBlock, alteredGenesis] = Outcome.fatal "Wrong Block: invalid index" ∧
    (∀ c p : Block, isValidNewBlock c p ≠ Outcome.ret false) ∧
    (∀ c p : Block,
      ¬ (c.index = wrapInt (p.index + 1) ∧ c.previousHash = p.hash ∧
          calculateHash c.index c.previousHash c.timestamp c.data = c.hash) →
        ∃ m, isValidNewBlock c p = Outcome.fatal m) ∧
    (∀ (newBlocks : List Block) (s : Node) (u : Unit),
      (replaceChain newBlocks s).1 ≠ Outcome.ret u) ∧
    (∀ (unmarshalled : Option (List Block)) (s : Node) (u : Unit),
      (handleBlockChainResponse unmarshalled s).1 ≠ Outcome.ret u) := by
  refine ⟨by decide, by decide!, by decide!, by decide!, by decide!,
    isValidNewBlock_ne_ret_false, fun c p h => ?_, fun bs s u => ?_, fun x s u => ?_⟩
  · rcases isValidNewBlock_cases c p with e | ⟨m, e⟩
    · exact absurd ((isValidNewBlock_ret_true c p).mp e) h
    · exact ⟨m, e⟩
  · obtain ⟨o, ho, e⟩ := replaceChain_apply bs s
    rw [e]
    exact ho u
  · obtain ⟨o, ho, e⟩ := handleBlockChainResponse_apply x s
    rw [e]
    exact ho u

/-- C17: for every state of the ledger and every decoding result of an inbound
response, the ledger after `handleBlockChainResponse` is the ledger before, or
the ledger before with one block appended on which `isValidNewBlock` returns
true against the latest block, or a chain on which `isValidChain` returns true
and that is longer than the ledger before.  It is always the first of the
three. -/
theorem handleBlockChainResponse_mutations (s : Node) (unmarshalled : Option (List Block)) :
    ((handleBlockChainResponse unmarshalled s).2.blockchain = s.blockchain ∨
      (∃ r latest : Block, s.blockchain.getLast? = some latest ∧
        isValidNewBlock r latest = Outcome.ret true ∧
        (handleBlockChainResponse unmarshalled s).2.blockchain = s.blockchain ++ [r]) ∨
      (isValidChain (handleBlockChainResponse unmarshalled s).2.blockchain = Outcome.ret true ∧
        (handleBlockChainResponse unmarshalled s).2.blockchain.length > s.blockchain.length)) ∧
    (handleBlockChainResponse unmarshalled s).2.blockchain = s.blockchain := by
  obtain ⟨o, _, e⟩ := handleBlockChainResponse_apply unmarshalled s
  rw [e]
  exact ⟨Or.inl rfl, rfl⟩

/-- C18, evaluated on the code: for every state of the ledger and every response
carrying one block `r` with `r.index > latest.index` and
`r.previousHash ≠ latest.hash`, `handleBlockChainResponse` ends in
`log.Fatal("Blockchain Possibly Behind. ...")` with the node as it was: nothing
is written, so no `QUERY_ALL` request (type 1) goes to any peer.  So it is on a
ledger whose latest index is -1 for the block `Block{}` that the decoder yields,
and on `[GenesisBlock]` for a block of index 5, each with two connections. -/
theorem handleBlockChainResponse_exits_before_query_all :
    (∀ (s : Node) (r latest : Block), s.blockchain.getLast? = some latest →
      r.index > latest.index → r.previousHash ≠ latest.hash →
      handleBlockChainResponse (some [r]) s
          = (Outcome.fatal "Blockchain Possibly Behind. We got: ", s) ∧
        (handleBlockChainResponse (some [r]) s).2.sent = s.sent ∧
        ¬ ∃ peer : Nat,
          (handleBlockChainResponse (some [r]) s).2.sent = s.sent ++ [(peer, queryAllMsg)]) ∧
    behindNode.blockchain.getLast?.map Block.index = some (-1) ∧
    behindNode.blockchain.getLast?.map Block.hash ≠ some zeroBlock.previousHash ∧
    handleBlockChainResponse (unmarshalBlocks (some 1)) behindNode
      = (Outcome.fatal "Blockchain Possibly Behind. We got: ", behindNode) ∧
    (handleBlockChainResponse (unmarshalBlocks (some 1)) behindNode).2.sent = [] ∧
    farBlock.index > GenesisBlock.index ∧ farBlock.previousHash ≠ GenesisBlock.hash ∧
    twoPeerNode.blockchain.getLast? = some GenesisBlock ∧
    handleBlockChainResponse (some [farBlock]) twoPeerNode
      = (Outcome.fatal "Blockchain Possibly Behind. We got: ", twoPeerNode) ∧
    (handleBlockChainResponse (some [farBlock]) twoPeerNode).2.sent = [] ∧
    queryAllMsg = lit "\x7b\x27type\x27: 1\x7d" := by
  refine ⟨fun s r latest hl hidx _ => ?_, by decide, by decide, by decide, by decide,
    by decide, by decide, rfl, by decide, by decide, by decide⟩
  have h := handleBlockChainResponse_single_ahead s r latest hl hidx
  rw [h]
  refine ⟨rfl, rfl, ?_⟩
  rintro ⟨peer, hp⟩
  have hlen := congrArg List.length hp
  simp at hlen

/-- C19, evaluated on the code: when the payload decodes to an empty list,
`handleBlockChainResponse` does not return: `blocks[len(blocks)-1]` panics with an
index out of range, in every state (the node is left as it was). -/
theorem handleBlockChainResponse_panics_on_empty :
    handleBlockChainResponse (some []) (initialNode [])
      = (Outcome.panic "index out of range", initialNode []) ∧
    ∀ s : Node, handleBlockChainResponse (some []) s = (Outcome.panic "index out of range", s) :=
  ⟨rfl, handleBlockChainResponse_nil⟩

/-- C20: the length of the ledger never decreases: after `addBlock` of any
block, `replaceChain` of any chain, `handleBlockChainResponse` of any non-empty
block list, and after every operation of `Step`, the ledger is at least as long
as before. -/
theorem ledger_length_never_decreases (s : Node) :
    (∀ b : Block, s.blockchain.length ≤ (addBlock b s).2.blockchain.length) ∧
    (∀ newBlocks : List Block,
      s.blockchain.length ≤ (replaceChain newBlocks s).2.blockchain.length) ∧
    (∀ blocks : List Block, blocks ≠ [] →
      s.blockchain.length ≤ (handleBlockChainResponse (some blocks) s).2.blockchain.length) ∧
    (∀ t : Node, Step s t → s.blockchain.length ≤ t.blockchain.length) := by
  have hstep : ∀ t : Node, Step s t → s.blockchain.length ≤ t.blockchain.length := by
    intro t h
    rcases step_blockchain h with e | ⟨c, _, _, e⟩
    · rw [e]
    · rw [e, List.length_append]
      omega
  exact ⟨fun b => hstep _ (Step.byAddBlock s b), fun bs => hstep _ (Step.byReplaceChain s bs),
    fun blocks _ => hstep _ (Step.byResponse s (some blocks)), hstep⟩

end GoSimpleBlockchain
